import Mathlib

/-!
Shallow embedding of the kaniko build engine's snapshot / cache core:
the `LayeredMap` (pkg/snapshot/layered_map.go), the `Snapshotter`
(pkg/snapshot/snapshot.go), the stage builder's cache-key and layer-append
logic (pkg/executor/build.go), and the layer-cache client
(pkg/cache/cache.go, pkg/executor PushLayerToCache).

Go maps are modelled as association lists with insert-replaces-existing
semantics; Go's `(value, ok)` lookups are modelled with `Option`; Go
functions returning `error` are modelled with `Except String` / `GoResult`;
a Go runtime index-out-of-range abort is modelled as `GoResult.outOfRange`.
External collaborators (the SHA256 hash, JSON encoding, registry tag
parsing, file hashers) are universally-quantified function parameters.
-/

set_option autoImplicit false

namespace Kaniko

/-- Result of running a Go function: normal value, returned `error`, or a
runtime abort from an out-of-bounds slice index. -/
inductive GoResult (α : Type) where
  | ok (a : α)
  | err (e : String)
  | outOfRange
  deriving Repr, DecidableEq

def GoResult.map {α β : Type} (f : α → β) : GoResult α → GoResult β
  | .ok a => .ok (f a)
  | .err e => .err e
  | .outOfRange => .outOfRange

/-- A Go `map[string]V`, as an association list with unique keys kept by
`assocSet`. Iteration order of a Go map is arbitrary; the embedding fixes
list order, which is sound for the properties proved here because every
per-key effect in the source is order-insensitive. -/
abbrev Assoc (V : Type) := List (String × V)

def assocGet {V : Type} (m : Assoc V) (k : String) : Option V :=
  (m.find? (fun e => e.1 == k)).map (fun e => e.2)

def assocSet {V : Type} (m : Assoc V) (k : String) (v : V) : Assoc V :=
  if (m.find? (fun e => e.1 == k)).isSome then
    m.map (fun e => if e.1 == k then (k, v) else e)
  else
    m ++ [(k, v)]

/-- A Go `map[string]string` layer of the layered map. -/
abbrev GoMap := Assoc String

/-- `LayeredMap` of pkg/snapshot/layered_map.go (the version with
`layers`, `modifiedFiles`, `whiteouts`): a stack of per-layer maps from
absolute path to fingerprint. The `hasher` field is passed explicitly to
the operations that use it. -/
structure LayeredMap where
  layers : List GoMap
  modifiedFiles : List GoMap
  whiteouts : List GoMap
  deriving Repr, DecidableEq

/-- `NewLayeredMap`: `layers` is set to an empty slice; `modifiedFiles` and
`whiteouts` are left nil (both have length zero, like the empty slice). -/
def NewLayeredMap : LayeredMap := ⟨[], [], []⟩

/-- `LayeredMap.Snapshot`: appends one fresh empty map to `whiteouts`,
`layers` and `modifiedFiles`. -/
def LayeredMap.Snapshot (l : LayeredMap) : LayeredMap :=
  { whiteouts := l.whiteouts ++ [[]]
    layers := l.layers ++ [[]]
    modifiedFiles := l.modifiedFiles ++ [[]] }

/-- The loop `for i := len(layers)-1; i >= 0; i--` of `LayeredMap.Get` /
`GetWhiteout`: the head of the list is layer index 0, so the recursion
consults the tail (the higher indices) first and falls back to the head. -/
def layersGet (layers : List GoMap) (s : String) : Option String :=
  match layers with
  | [] => none
  | m :: ms =>
    match layersGet ms s with
    | some v => some v
    | none => assocGet m s

/-- `LayeredMap.Get`: highest-index lookup over `layers`; Go returns
`("", false)` when absent, modelled as `none`. -/
def LayeredMap.Get (l : LayeredMap) (s : String) : Option String :=
  layersGet l.layers s

/-- `LayeredMap.GetWhiteout`: highest-index lookup over `whiteouts`. -/
def LayeredMap.GetWhiteout (l : LayeredMap) (s : String) : Option String :=
  layersGet l.whiteouts s

/-- The write `xs[len(xs)-1][s] = v` used by `Add` / `MaybeAdd` /
`MaybeAddWhiteout`: updates the last map of the stack; on an empty stack
the index `len(xs)-1 = -1` is out of bounds, modelled as `none`. -/
def setLast (xs : List GoMap) (k v : String) : Option (List GoMap) :=
  match xs with
  | [] => none
  | [m] => some [assocSet m k v]
  | m :: m' :: ms => (setLast (m' :: ms) k v).map (fun t => m :: t)

/-- `LayeredMap.MaybeAdd`: computes the current fingerprint via the
hasher; if `Get` finds an equal fingerprint it returns `false` without
writing, otherwise it writes into the topmost layer and returns `true`. -/
def LayeredMap.MaybeAdd (hasher : String → Except String String)
    (l : LayeredMap) (s : String) : GoResult (Bool × LayeredMap) :=
  let oldV := l.Get s
  match hasher s with
  | .error e => .err e
  | .ok newV =>
    if (match oldV with | some old => newV == old | none => false) then
      .ok (false, l)
    else
      match setLast l.layers s newV with
      | none => .outOfRange
      | some ls => .ok (true, { l with layers := ls })

/-- `LayeredMap.Add`: unconditional write of the fingerprint into the top
layer; also records the ignore-mtime fingerprint (`util.IgnoreMtimeHasher`)
in the top `modifiedFiles` map. -/
def LayeredMap.Add (hasher mtHasher : String → Except String String)
    (l : LayeredMap) (s : String) : GoResult LayeredMap :=
  match hasher s with
  | .error e => .err ("Error creating hash for " ++ s ++ ": " ++ e)
  | .ok newV =>
    match setLast l.layers s newV with
    | none => .outOfRange
    | some ls =>
      match mtHasher s with
      | .error e => .err e
      | .ok m =>
        match setLast l.modifiedFiles s m with
        | none => .outOfRange
        | some ms => .ok { layers := ls, modifiedFiles := ms, whiteouts := l.whiteouts }

/-- `LayeredMap.MaybeAddWhiteout`: returns `false` when the topmost-found
whiteout entry for `s` equals `s`; otherwise records `s` in the top
whiteout map and returns `true`. -/
def LayeredMap.MaybeAddWhiteout (l : LayeredMap) (s : String) :
    GoResult (Bool × LayeredMap) :=
  match layersGet l.whiteouts s with
  | some w =>
    if w == s then .ok (false, l)
    else
      match setLast l.whiteouts s s with
      | none => .outOfRange
      | some ws => .ok (true, { l with whiteouts := ws })
  | none =>
    match setLast l.whiteouts s s with
    | none => .outOfRange
    | some ws => .ok (true, { l with whiteouts := ws })

/-- Go `strings.HasPrefix pre s`: `pre` is an initial segment of `s`. -/
def goHasStart (pre s : String) : Bool :=
  pre.toList.isPrefixOf s.toList

/-- The splitter of Go `strings.Split s "/"` over the characters of
`s`. -/
def splitSlashChars : List Char → List (List Char)
  | [] => [[]]
  | c :: cs =>
    let r := splitSlashChars cs
    if c = '/' then [] :: r
    else
      match r with
      | [] => [[c]]
      | x :: xs => (c :: x) :: xs

/-- Go `strings.Split s "/"`. -/
def goSplitSlash (s : String) : List String :=
  (splitSlashChars s.toList).map String.mk

/-- Go `path/filepath.Base` for slash-separated paths: `""` gives `"."`;
otherwise trailing slashes are stripped, the part after the last slash is
returned, and a path of only slashes gives `"/"`. -/
def goBase (p : String) : String :=
  if p = "" then "."
  else
    let q := ((p.toList.reverse.dropWhile (fun c => c = '/')).reverse)
    let r := (q.reverse.takeWhile (fun c => c ≠ '/')).reverse
    if r = [] then "/" else String.mk r

def pathsRemove (s : List String) (p : String) : List String :=
  s.filter (fun q => q ≠ p)

def pathsInsert (s : List String) (p : String) : List String :=
  if s.contains p then s else s ++ [p]

/-- `LayeredMap.GetFlattenedPathsForWhiteOut` (identical in both source
versions): for each path of each layer, the `if` deletes paths whose
basename starts with `.wh.` and the `else` inserts the others — but the
unconditional insert that follows the `if`/`else` puts the path back in
either case. -/
def LayeredMap.GetFlattenedPathsForWhiteOut (l : LayeredMap) : List String :=
  l.layers.foldl
    (fun paths layer =>
      layer.foldl
        (fun paths e =>
          let p := e.1
          let paths :=
            if goHasStart ".wh." (goBase p) then pathsRemove paths p
            else pathsInsert paths p
          pathsInsert paths p)
        paths)
    []

/-- Go `json.Encoder.Encode` writes the JSON form of the value followed by
a newline into the buffer; the encoding itself is abstract. -/
def goJsonEncode {α : Type} (enc : α → String) (x : α) : String :=
  enc x ++ "\n"

/-- `LayeredMap.Key`: SHA256 of the JSON encoding of `modifiedFiles`
(the ignore-mtime fingerprint maps). `sha256` abstracts `util.SHA256`,
`encMaps` abstracts Go's deterministic JSON encoding of
`[]map[string]string`. -/
def LayeredMap.Key (sha256 : String → String) (encMaps : List GoMap → String)
    (l : LayeredMap) : String :=
  sha256 (goJsonEncode encMaps l.modifiedFiles)

/-! ### The Snapshotter and the `LayeredMap` version it uses

`Snapshotter.snapShotFS` / `checkForRemovedFiles` are written against the
`LayeredMap` version with exported `Layers []map[string]string` and
`WhiteoutFiles map[string]bool`. -/

/-- The Snapshotter's `LayeredMap` (the version with `Layers` and
`WhiteoutFiles`). -/
structure LayeredMap2 where
  Layers : List GoMap
  WhiteoutFiles : Assoc Bool
  deriving Repr, DecidableEq

/-- `NewLayeredMap` of that version: empty layer stack, empty whiteout
file map. -/
def NewLayeredMap2 : LayeredMap2 := ⟨[], []⟩

/-- Its `Snapshot`: appends one fresh empty layer. -/
def LayeredMap2.Snapshot (l : LayeredMap2) : LayeredMap2 :=
  { l with Layers := l.Layers ++ [[]] }

/-- Its `Get`: highest-index lookup over `Layers`. -/
def LayeredMap2.Get (l : LayeredMap2) (s : String) : Option String :=
  layersGet l.Layers s

/-- Its `MaybeAdd`: same logic as the other version, on `Layers`. -/
def LayeredMap2.MaybeAdd (hasher : String → Except String String)
    (l : LayeredMap2) (s : String) : GoResult (Bool × LayeredMap2) :=
  let oldV := l.Get s
  match hasher s with
  | .error e => .err e
  | .ok newV =>
    if (match oldV with | some old => newV == old | none => false) then
      .ok (false, l)
    else
      match setLast l.Layers s newV with
      | none => .outOfRange
      | some ls => .ok (true, { l with Layers := ls })

/-- An entry the Snapshotter writes to the tar stream: a regular entry for
an added or changed path, or a whiteout for a deleted path (written by
`util.AddWhiteoutToTar` under the name `<parent>/.wh.<basename>` per the
spec; the deleted path identifies the entry here). -/
inductive TarEntry where
  | file (path : String)
  | whiteout (path : String)
  deriving Repr, DecidableEq

/-- The on-disk state the Snapshotter walks: the list of existing paths in
walk order, each with the fingerprint the hasher computes for it. -/
abbrev Disk := List (String × String)

/-- The `LayeredMap` hasher, reading the disk: hashing a missing path is
an error (the walk only hashes paths that exist). -/
def diskHasher (disk : Disk) : String → Except String String :=
  fun p =>
    match assocGet disk p with
    | some h => .ok h
    | none => .error ("hashing " ++ p)

/-- Modelled from the spec: `util.FilepathExists` is not under src; per
§4.1 a missing path is interpreted as a deletion, so this is plain
existence on disk. -/
def FilepathExists (disk : Disk) (p : String) : Bool :=
  (assocGet disk p).isSome

/-- Go `filepath.Join` for a clean absolute directory and one clean path
element, as used by `checkForRemovedFiles` to rebuild ancestor paths. -/
def goJoin (d e : String) : String :=
  if e = "" then d
  else if d = "/" then d ++ e
  else d ++ "/" ++ e

/-- The ancestor scan inside `checkForRemovedFiles`: split the file on
`/`, rebuild each prefix path from the root, and test whether any of them
is recorded with value `true` in `WhiteoutFiles`. In the source this scan
only drives a `continue` of its own loop (and a log line), so its outcome
cannot affect whether a whiteout is emitted. -/
def ancestorWhitedOut (wf : Assoc Bool) (file : String) : Bool :=
  ((goSplitSlash file).foldl
    (fun (acc : String × Bool) d =>
      let dirPath := goJoin acc.1 d
      (dirPath, acc.2 || (assocGet wf dirPath == some true)))
    ("/", false)).2

/-- The `filepath.Walk` body of `snapShotFS`, over the disk paths in walk
order: skip whitelisted paths, clean, `MaybeAdd`; on `true` mark the path
`false` in `WhiteoutFiles`, set `filesAdded` and append a tar entry.
`clean` abstracts Go `filepath.Clean`, `w` abstracts
`util.PathInWhitelist`. -/
def snapWalk (clean : String → String) (w : String → Bool)
    (hasher : String → Except String String) :
    List String → LayeredMap2 → List TarEntry → Bool →
    GoResult (LayeredMap2 × List TarEntry × Bool)
  | [], st, es, fa => .ok (st, es, fa)
  | p :: ps, st, es, fa =>
    if w p then snapWalk clean w hasher ps st es fa
    else
      let p := clean p
      match st.MaybeAdd hasher p with
      | .err e => .err e
      | .outOfRange => .outOfRange
      | .ok (added, st') =>
        if added then
          snapWalk clean w hasher ps
            { st' with WhiteoutFiles := assocSet st'.WhiteoutFiles p false }
            (es ++ [TarEntry.file p]) true
        else
          snapWalk clean w hasher ps st' es fa

/-- `Snapshotter.checkForRemovedFiles`: for every path of every layer that
no longer exists on disk, a whiteout entry is written to the tar and the
path is marked `true` in `WhiteoutFiles`. The source first runs the
ancestor scan (`ancestorWhitedOut`); its `continue` statement only
advances that inner scan, so the emission below is unconditional. -/
def checkForRemovedFiles (clean : String → String) (disk : Disk)
    (st : LayeredMap2) : LayeredMap2 × List TarEntry :=
  st.Layers.foldl
    (fun acc layer =>
      layer.foldl
        (fun (acc : LayeredMap2 × List TarEntry) e =>
          let file := clean e.1
          if FilepathExists disk file then acc
          else
            ({ acc.1 with WhiteoutFiles := assocSet acc.1.WhiteoutFiles file true },
             acc.2 ++ [TarEntry.whiteout file]))
        acc)
    (st, [])

/-- `Snapshotter.snapShotFS`: push a fresh layer, walk the disk adding
changed paths, then emit whiteouts for removed paths. Returns the updated
map, the tar entries written to the stream, and `filesAdded` — which the
walk alone sets. -/
def snapShotFS (clean : String → String) (w : String → Bool) (disk : Disk)
    (st : LayeredMap2) : GoResult (LayeredMap2 × List TarEntry × Bool) :=
  match snapWalk clean w (diskHasher disk) (disk.map (fun e => e.1))
      st.Snapshot [] false with
  | .err e => .err e
  | .outOfRange => .outOfRange
  | .ok (st', es, fa) =>
    let r := checkForRemovedFiles clean disk st'
    .ok (r.1, es ++ r.2, fa)

/-- The per-file loop of `TakeSnapshotOfFiles`: clean, `Lstat` (an error
if the file is missing), whitelist filter, `MaybeAdd`; tar and mark added
files. -/
def filesLoop (clean : String → String) (w : String → Bool) (disk : Disk) :
    List String → LayeredMap2 → List TarEntry → Bool →
    GoResult (LayeredMap2 × List TarEntry × Bool)
  | [], st, es, fa => .ok (st, es, fa)
  | f :: fs, st, es, fa =>
    let f := clean f
    if FilepathExists disk f = false then .err ("lstat " ++ f)
    else if w f then filesLoop clean w disk fs st es fa
    else
      match st.MaybeAdd (diskHasher disk) f with
      | .err e => .err e
      | .outOfRange => .outOfRange
      | .ok (added, st') =>
        if added then
          filesLoop clean w disk fs
            { st' with WhiteoutFiles := assocSet st'.WhiteoutFiles f false }
            (es ++ [TarEntry.file f]) true
        else
          filesLoop clean w disk fs st' es fa

/-- `Snapshotter.TakeSnapshotOfFiles`: push a fresh layer; an empty file
list short-circuits to `nil`; otherwise run the per-file loop and return
`nil` when nothing was added. -/
def TakeSnapshotOfFiles (clean : String → String) (w : String → Bool)
    (disk : Disk) (st : LayeredMap2) (files : List String) :
    GoResult (LayeredMap2 × Option (List TarEntry)) :=
  let st := st.Snapshot
  if files = [] then .ok (st, none)
  else
    match filesLoop clean w disk files st [] false with
    | .err e => .err e
    | .outOfRange => .outOfRange
    | .ok (st', es, fa) =>
      if fa then .ok (st', some es) else .ok (st', none)

/-- `Snapshotter.TakeSnapshot`: non-nil `files` dispatches to
`TakeSnapshotOfFiles`; nil runs the full-filesystem pass and returns the
buffer's contents, or `nil` when `filesAdded` is false. -/
def TakeSnapshot (clean : String → String) (w : String → Bool) (disk : Disk)
    (st : LayeredMap2) (files : Option (List String)) :
    GoResult (LayeredMap2 × Option (List TarEntry)) :=
  match files with
  | some fs => TakeSnapshotOfFiles clean w disk st fs
  | none =>
    match snapShotFS clean w disk st with
    | .err e => .err e
    | .outOfRange => .outOfRange
    | .ok (st', es, fa) =>
      if fa then .ok (st', some es) else .ok (st', none)

/-! ### Stage builder (pkg/executor/build.go) -/

/-- The growing image: layer blobs with their history `CreatedBy` strings.
`mutate.Append` appends one layer and one history entry (spec §4.5). -/
structure Image where
  layers : List String
  history : List String
  deriving Repr, DecidableEq

def Image.append (img : Image) (layer createdBy : String) : Image :=
  { layers := img.layers ++ [layer], history := img.history ++ [createdBy] }

/-- What `buildStage` does about snapshotting after one instruction. -/
inductive SnapAction where
  | noSnapshot
  | full
  | targeted (files : List String)
  deriving Repr, DecidableEq

/-- The snapshot decision of `stageBuilder.buildStage`: intermediate
stages snapshot the full filesystem only after the final command; in the
final stage, single-snapshot mode does the same, and otherwise every
command snapshots — targeted when `FilesToSnapshot` is non-nil, full
otherwise. -/
def snapshotDecision (finalStage singleSnapshot finalCmd : Bool)
    (files : Option (List String)) : SnapAction :=
  if !finalStage then
    if finalCmd then .full else .noSnapshot
  else if singleSnapshot then
    if finalCmd then .full else .noSnapshot
  else
    match files with
    | some fs => .targeted fs
    | none => .full

/-- The spec's snapshot decision matrix (§4.7), row by row. -/
def snapshotMatrix (finalStage singleSnapshot finalCmd : Bool)
    (files : Option (List String)) : SnapAction :=
  match finalStage, singleSnapshot, files with
  | false, _, _ => if finalCmd then .full else .noSnapshot
  | true, true, _ => if finalCmd then .full else .noSnapshot
  | true, false, some fs => .targeted fs
  | true, false, none => .full

/-- The tail of the `buildStage` loop body, from the `contents == nil`
check on: nil contents `continue`s (image untouched); otherwise, when the
command is cacheable and caching is enabled, the fresh layer is pushed to
the cache and a push error is returned (aborting the stage); then the
layer and its history entry are appended. `pushResult` abstracts the
outcome of `PushLayerToCache`. -/
def appendLayerStep (cacheCmd useCache : Bool)
    (pushResult : Except String Unit) (img : Image) (createdBy : String)
    (contents : Option String) : Except String Image :=
  match contents with
  | none => .ok img
  | some layer =>
    if cacheCmd && useCache then
      match pushResult with
      | .error e => .error e
      | .ok _ => .ok (img.append layer createdBy)
    else .ok (img.append layer createdBy)

/-- Stage builder state, as used by `CacheKey`: base-image digest, image
config file, and the Snapshotter's layered map. The config file stays an
abstract type. -/
structure StageBuilder (Cfg : Type) where
  BaseImage : String
  ConfigFile : Cfg
  lm : LayeredMap

/-- Modelled from the spec: `Snapshotter.FilesystemKey` is not under src
(only its caller in build.go is); §4.2 `fsKey()` says it is the layered
map's key. -/
def FilesystemKey (sha256 : String → String) (encMaps : List GoMap → String)
    (l : LayeredMap) : String :=
  l.Key sha256 encMaps

/-- `stageBuilder.CacheKey`: SHA256 of base digest ‖ filesystem key ‖
SHA256 of the JSON-encoded config file ‖ the command's CreatedBy string.
`encCfg` abstracts the JSON encoding of the config file. -/
def CacheKey {Cfg : Type} (sha256 : String → String)
    (encMaps : List GoMap → String) (encCfg : Cfg → String)
    (s : StageBuilder Cfg) (cmd : String) : String :=
  let fsKey := FilesystemKey sha256 encMaps s.lm
  let cfHash := sha256 (goJsonEncode encCfg s.ConfigFile)
  sha256 (s.BaseImage ++ fsKey ++ cfHash ++ cmd)

/-- The spec's cache-key formula (§3 Cache Key):
`SHA256(base_image_digest ‖ fs_key ‖ config_hash ‖ created_by_string)`. -/
def cacheKeyFormula (sha256 : String → String)
    (baseDigest fsKey configHash createdBy : String) : String :=
  sha256 (baseDigest ++ fsKey ++ configHash ++ createdBy)

/-! ### Layer cache client (pkg/cache/cache.go, PushLayerToCache) -/

/-- Modelled from the spec: the fields of `config.KanikoOptions` (not
under src) that the cache client reads — the cache repository (`--cache-repo`,
empty when unset) and the destination list. -/
structure KanikoOptions where
  Cache : String
  Destinations : List String
  deriving Repr, DecidableEq

/-- `PushLayerToCache`, up to the name of the cache tag it pushes to: the
first destination is read unconditionally (`opts.Destinations[0]`), parsed
as a tag (`ctx` abstracts `name.NewTag`/`.Context()`, which can only
return an error), and the cache reference `<repo>/cache:<key>` is built.
The registry push itself is external. -/
def PushLayerToCache (ctx : String → Except String String)
    (opts : KanikoOptions) (cacheKey : String) : GoResult String :=
  match opts.Destinations with
  | [] => .outOfRange
  | destination :: _ =>
    match ctx destination with
    | .error e => .err ("getting tag for destination: " ++ e)
    | .ok c => .ok (c ++ "/cache:" ++ cacheKey)

/-- `CheckCacheForLayer`, up to the name of the cache tag it queries: when
no cache repository is configured the first destination is read
(`opts.Destinations[0]`) and `<destination-repo>/cache` is used; then the
cache key is appended as the tag. The registry lookup itself is
external. -/
def CheckCacheForLayer (ctx : String → Except String String)
    (opts : KanikoOptions) (cacheKey : String) : GoResult String :=
  let repo : GoResult String :=
    if opts.Cache == "" then
      match opts.Destinations with
      | [] => .outOfRange
      | destination :: _ =>
        match ctx destination with
        | .error e => .err ("getting tag for destination: " ++ e)
        | .ok c => .ok (c ++ "/cache")
    else .ok opts.Cache
  match repo with
  | .ok c => .ok (c ++ ":" ++ cacheKey)
  | .err e => .err e
  | .outOfRange => .outOfRange

/-! ### Operation sequences on the layered map -/

/-- One client-visible operation on the `LayeredMap`. -/
inductive LMOp where
  | snapshot
  | add (s : String)
  | maybeAdd (s : String)
  | maybeAddWhiteout (s : String)
  deriving Repr, DecidableEq

def runOp (hasher mtHasher : String → Except String String)
    (l : LayeredMap) : LMOp → GoResult LayeredMap
  | .snapshot => .ok l.Snapshot
  | .add s => l.Add hasher mtHasher s
  | .maybeAdd s => (l.MaybeAdd hasher s).map (fun r => r.2)
  | .maybeAddWhiteout s => (l.MaybeAddWhiteout s).map (fun r => r.2)

def runOps (hasher mtHasher : String → Except String String) :
    List LMOp → LayeredMap → GoResult LayeredMap
  | [], l => .ok l
  | op :: ops, l =>
    match runOp hasher mtHasher l op with
    | .ok l' => runOps hasher mtHasher ops l'
    | .err e => .err e
    | .outOfRange => .outOfRange

/-! ### Concrete instances used to exercise the theorems -/

/-- A hasher that always succeeds with fingerprint `"h"`. -/
def hConst : String → Except String String := fun _ => .ok "h"

/-- An ignore-mtime hasher that always succeeds with fingerprint `"m"`. -/
def mConst : String → Except String String := fun _ => .ok "m"

/-- A tag-context resolver that echoes the destination repository. -/
def ctxEcho : String → Except String String := fun d => .ok d

/-- Two-layer map: `/a` fingerprinted `"1"` in layer 0 and `"2"` in
layer 1. -/
def lmTwo : LayeredMap := ⟨[[("/a", "1")], [("/a", "2")]], [], []⟩

/-- `lmTwo` after `MaybeAdd "/b"` with `hConst`. -/
def lmTwo' : LayeredMap := ⟨[[("/a", "1")], [("/a", "2"), ("/b", "h")]], [], []⟩

/-- `NewLayeredMap` after `Snapshot` then `Add "/a"` with `hConst` and
`mConst`. -/
def lmAfterAdd : LayeredMap := ⟨[[("/a", "h")]], [[("/a", "m")]], [[]]⟩

/-- Snapshotter state whose only layer records `/a`; the disk no longer
holds it. -/
def lm2Deleted : LayeredMap2 := ⟨[[("/a", "h1")]], []⟩

/-- Snapshotter state recording `/a/b`, with the ancestor directory `/a`
already whited out. -/
def lm2Ancestor : LayeredMap2 := ⟨[[("/a/b", "h")]], [("/a", true)]⟩

/-- Map with a single layer holding the whiteout-named path `/a/.wh.b`
and the regular path `/c`. -/
def lmWhiteoutNamed : LayeredMap := ⟨[[("/a/.wh.b", "x"), ("/c", "y")]], [], []⟩

/-- Options with an empty destination list and no cache repository. -/
def optsNoDest : KanikoOptions := ⟨"", []⟩

/-! ### Helper lemmas -/

theorem setLast_some {xs : List GoMap} {k v : String} {xs' : List GoMap}
    (h : setLast xs k v = some xs') :
    xs'.dropLast = xs.dropLast ∧ xs'.length = xs.length := by
  induction xs generalizing xs' with
  | nil => simp [setLast] at h
  | cons m ms ih =>
    cases ms with
    | nil =>
      simp only [setLast, Option.some.injEq] at h
      subst h
      simp
    | cons m' ms' =>
      simp only [setLast, Option.map_eq_some'] at h
      obtain ⟨t, ht, rfl⟩ := h
      obtain ⟨hd, hl⟩ := ih ht
      have hne : t ≠ [] := by
        intro hnil
        rw [hnil] at hl
        simp at hl
      constructor
      · cases t with
        | nil => exact absurd rfl hne
        | cons a as => rw [List.dropLast_cons₂, List.dropLast_cons₂, hd]
      · simpa using hl

theorem setLast_none {xs : List GoMap} {k v : String}
    (h : setLast xs k v = none) : xs = [] := by
  cases xs with
  | nil => rfl
  | cons m ms =>
    cases ms with
    | nil => simp [setLast] at h
    | cons m' ms' =>
      simp only [setLast, Option.map_eq_none'] at h
      exact absurd (setLast_none h) (by simp)

theorem layersGet_none_iff (ls : List GoMap) (s : String) :
    layersGet ls s = none ↔ ∀ i (hi : i < ls.length), assocGet ls[i] s = none := by
  induction ls with
  | nil => simp [layersGet]
  | cons m ms ih =>
    have hsplit : layersGet (m :: ms) s = none ↔
        layersGet ms s = none ∧ assocGet m s = none := by
      cases hms : layersGet ms s <;> simp [layersGet, hms]
    rw [hsplit, ih]
    constructor
    · rintro ⟨htail, hhead⟩ i hi
      cases i with
      | zero => simpa using hhead
      | succ j =>
        have hj : j < ms.length := by simpa using hi
        simpa using htail j hj
    · intro hall
      refine ⟨fun j hj => ?_, ?_⟩
      · have := hall (j + 1) (by simpa using hj)
        simpa using this
      · simpa using hall 0 (by simp)

theorem layersGet_some {ls : List GoMap} {s v : String}
    (h : layersGet ls s = some v) :
    ∃ i, ∃ hi : i < ls.length, assocGet ls[i] s = some v ∧
      ∀ j (hj : j < ls.length), i < j → assocGet ls[j] s = none := by
  induction ls with
  | nil => simp [layersGet] at h
  | cons m ms ih =>
    cases hms : layersGet ms s with
    | none =>
      have hhead : assocGet m s = some v := by
        simpa [layersGet, hms] using h
      refine ⟨0, by simp, by simpa using hhead, ?_⟩
      intro j hj hpos
      cases j with
      | zero => omega
      | succ j' =>
        have hj' : j' < ms.length := by simpa using hj
        simpa using (layersGet_none_iff ms s).mp hms j' hj'
    | some v' =>
      have hv : v' = v := by simpa [layersGet, hms] using h
      subst hv
      obtain ⟨i, hi, hget, hafter⟩ := ih hms
      refine ⟨i + 1, by simpa using hi, by simpa using hget, ?_⟩
      intro j hj hpos
      cases j with
      | zero => omega
      | succ j' =>
        have hj' : j' < ms.length := by simpa using hj
        simpa using hafter j' hj' (by omega)

theorem maybeAdd_ok {hasher : String → Except String String}
    {l : LayeredMap} {s : String} {b : Bool} {l' : LayeredMap}
    (h : LayeredMap.MaybeAdd hasher l s = .ok (b, l')) :
    l' = l ∨ ∃ newV ls, setLast l.layers s newV = some ls ∧
      l' = { l with layers := ls } := by
  unfold LayeredMap.MaybeAdd at h
  cases hh : hasher s with
  | error e => simp [hh] at h
  | ok newV =>
    simp only [hh] at h
    split at h
    · left
      exact (Prod.mk.injEq _ _ _ _ ▸ (GoResult.ok.injEq _ _ ▸ h)).2.symm
    · cases hsl : setLast l.layers s newV with
      | none => simp [hsl] at h
      | some ls =>
        simp only [hsl] at h
        right
        refine ⟨newV, ls, hsl, ?_⟩
        have := (GoResult.ok.injEq _ _ ▸ h)
        exact ((Prod.mk.injEq _ _ _ _ ▸ this).2).symm

theorem maybeAddWhiteout_ok {l : LayeredMap} {s : String} {b : Bool}
    {l' : LayeredMap} (h : LayeredMap.MaybeAddWhiteout l s = .ok (b, l')) :
    l' = l ∨ ∃ ws, setLast l.whiteouts s s = some ws ∧
      l' = { l with whiteouts := ws } := by
  unfold LayeredMap.MaybeAddWhiteout at h
  cases hw : layersGet l.whiteouts s with
  | some w =>
    simp only [hw] at h
    split at h
    · left
      have := (GoResult.ok.injEq _ _ ▸ h)
      exact ((Prod.mk.injEq _ _ _ _ ▸ this).2).symm
    · cases hsl : setLast l.whiteouts s s with
      | none => simp [hsl] at h
      | some ws =>
        simp only [hsl] at h
        right
        refine ⟨ws, rfl, ?_⟩
        have := (GoResult.ok.injEq _ _ ▸ h)
        exact ((Prod.mk.injEq _ _ _ _ ▸ this).2).symm
  | none =>
    simp only [hw] at h
    cases hsl : setLast l.whiteouts s s with
    | none => simp [hsl] at h
    | some ws =>
      simp only [hsl] at h
      right
      refine ⟨ws, rfl, ?_⟩
      have := (GoResult.ok.injEq _ _ ▸ h)
      exact ((Prod.mk.injEq _ _ _ _ ▸ this).2).symm

theorem add_ok {hasher mtHasher : String → Except String String}
    {l : LayeredMap} {s : String} {l' : LayeredMap}
    (h : LayeredMap.Add hasher mtHasher l s = .ok l') :
    ∃ v ls m ms, setLast l.layers s v = some ls ∧
      setLast l.modifiedFiles s m = some ms ∧
      l' = { layers := ls, modifiedFiles := ms, whiteouts := l.whiteouts } := by
  unfold LayeredMap.Add at h
  cases hh : hasher s with
  | error e => simp [hh] at h
  | ok newV =>
    simp only [hh] at h
    cases hsl : setLast l.layers s newV with
    | none => simp [hsl] at h
    | some ls =>
      simp only [hsl] at h
      cases hm : mtHasher s with
      | error e => simp [hm] at h
      | ok mv =>
        simp only [hm] at h
        cases hms : setLast l.modifiedFiles s mv with
        | none => simp [hms] at h
        | some ms =>
          simp only [hms, GoResult.ok.injEq] at h
          exact ⟨newV, ls, mv, ms, hsl, hms, h.symm⟩

/-- The three stacks of a `LayeredMap` have equal heights. -/
def balanced (l : LayeredMap) : Prop :=
  l.layers.length = l.whiteouts.length ∧
  l.layers.length = l.modifiedFiles.length

theorem runOp_balanced {hasher mtHasher : String → Except String String}
    {l l' : LayeredMap} {op : LMOp} (hb : balanced l)
    (h : runOp hasher mtHasher l op = .ok l') : balanced l' := by
  obtain ⟨hw, hm⟩ := hb
  cases op with
  | snapshot =>
    simp only [runOp, GoResult.ok.injEq] at h
    subst h
    constructor
    · simp [LayeredMap.Snapshot]; omega
    · simp [LayeredMap.Snapshot]; omega
  | add s =>
    simp only [runOp] at h
    obtain ⟨v, ls, m, ms, hsl, hsm, rfl⟩ := add_ok h
    have h1 := (setLast_some hsl).2
    have h2 := (setLast_some hsm).2
    exact ⟨by simp only [h1]; exact hw, by simp only [h1]; rw [hm, ← h2]⟩
  | maybeAdd s =>
    simp only [runOp] at h
    cases hma : LayeredMap.MaybeAdd hasher l s with
    | ok r =>
      obtain ⟨bb, l2⟩ := r
      simp only [hma, GoResult.map, GoResult.ok.injEq] at h
      subst h
      rcases maybeAdd_ok hma with rfl | ⟨v, ls, hsl, rfl⟩
      · exact ⟨hw, hm⟩
      · have h1 := (setLast_some hsl).2
        exact ⟨by simpa [h1] using hw, by simpa [h1] using hm⟩
    | err e => simp [hma, GoResult.map] at h
    | outOfRange => simp [hma, GoResult.map] at h
  | maybeAddWhiteout s =>
    simp only [runOp] at h
    cases hma : LayeredMap.MaybeAddWhiteout l s with
    | ok r =>
      obtain ⟨bb, l2⟩ := r
      simp only [hma, GoResult.map, GoResult.ok.injEq] at h
      subst h
      rcases maybeAddWhiteout_ok hma with rfl | ⟨ws, hsl, rfl⟩
      · exact ⟨hw, hm⟩
      · have h1 := (setLast_some hsl).2
        exact ⟨by simpa [h1] using hw, by simpa using hm⟩
    | err e => simp [hma, GoResult.map] at h
    | outOfRange => simp [hma, GoResult.map] at h

theorem runOps_balanced {hasher mtHasher : String → Except String String}
    {ops : List LMOp} {l l' : LayeredMap} (hb : balanced l)
    (h : runOps hasher mtHasher ops l = .ok l') : balanced l' := by
  induction ops generalizing l with
  | nil =>
    simp only [runOps, GoResult.ok.injEq] at h
    subst h
    exact hb
  | cons op ops ih =>
    simp only [runOps] at h
    cases hop : runOp hasher mtHasher l op with
    | ok l1 =>
      simp only [hop] at h
      exact ih (runOp_balanced hb hop) h
    | err e => simp [hop] at h
    | outOfRange => simp [hop] at h

/-! ### Claim theorems -/

/-- C1: for every `LayeredMap` state (hence after every sequence of
`Snapshot`/`MaybeAdd`/`MaybeAddWhiteout` operations) and every path `p`,
`Get p` returns the fingerprint of the highest layer index whose map
contains `p`, and `none` (Go `("", false)`) exactly when no layer contains
`p`; and a successful `MaybeAdd` leaves every layer below the topmost one,
and the other two stacks, unchanged. -/
theorem get_returns_highest_layer_and_maybeAdd_writes_top_only :
    (∀ (l : LayeredMap) (p v : String), l.Get p = some v →
      ∃ i, ∃ hi : i < l.layers.length, assocGet l.layers[i] p = some v ∧
        ∀ j (hj : j < l.layers.length), i < j → assocGet l.layers[j] p = none) ∧
    (∀ (l : LayeredMap) (p : String), l.Get p = none ↔
      ∀ i (hi : i < l.layers.length), assocGet l.layers[i] p = none) ∧
    (∀ (hasher : String → Except String String) (l : LayeredMap) (p : String)
      (b : Bool) (l' : LayeredMap),
      LayeredMap.MaybeAdd hasher l p = .ok (b, l') →
      l'.layers.dropLast = l.layers.dropLast ∧
      l'.layers.length = l.layers.length ∧
      l'.whiteouts = l.whiteouts ∧ l'.modifiedFiles = l.modifiedFiles) := by
  refine ⟨fun l p v h => layersGet_some h, fun l p => layersGet_none_iff l.layers p,
    fun hasher l p b l' h => ?_⟩
  rcases maybeAdd_ok h with rfl | ⟨v, ls, hsl, rfl⟩
  · exact ⟨rfl, rfl, rfl, rfl⟩
  · obtain ⟨hd, hl⟩ := setLast_some hsl
    exact ⟨hd, hl, rfl, rfl⟩

/-- Witness for C1: on the concrete two-layer map `lmTwo`, `MaybeAdd "/b"`
succeeds and the theorem yields that the lower layer is untouched. -/
theorem get_returns_highest_layer_and_maybeAdd_writes_top_only_witness :
    lmTwo'.layers.dropLast = lmTwo.layers.dropLast ∧
    lmTwo'.layers.length = lmTwo.layers.length ∧
    lmTwo'.whiteouts = lmTwo.whiteouts ∧
    lmTwo'.modifiedFiles = lmTwo.modifiedFiles :=
  get_returns_highest_layer_and_maybeAdd_writes_top_only.2.2 hConst lmTwo "/b"
    true lmTwo' (by decide)

/-- C10: `Snapshot` appends exactly one empty map to each of the three
stacks; every successful operation sequence from `NewLayeredMap` keeps the
three stacks at equal heights; `Add` and `MaybeAddWhiteout` write only the
last element of their stacks; and on the fresh map (height zero) each of
`Add`, `MaybeAdd` and `MaybeAddWhiteout` aborts with an index out of
range, so a prior `Snapshot` is a safety precondition. -/
theorem snapshot_appends_one_and_writes_need_prior_snapshot :
    (∀ l : LayeredMap,
      l.Snapshot.layers = l.layers ++ [[]] ∧
      l.Snapshot.whiteouts = l.whiteouts ++ [[]] ∧
      l.Snapshot.modifiedFiles = l.modifiedFiles ++ [[]]) ∧
    (∀ (hasher mtHasher : String → Except String String) (ops : List LMOp)
      (l' : LayeredMap), runOps hasher mtHasher ops NewLayeredMap = .ok l' →
      l'.layers.length = l'.whiteouts.length ∧
      l'.layers.length = l'.modifiedFiles.length) ∧
    (∀ (hasher mtHasher : String → Except String String) (l : LayeredMap)
      (s : String) (l' : LayeredMap),
      LayeredMap.Add hasher mtHasher l s = .ok l' →
      l'.layers.dropLast = l.layers.dropLast ∧
      l'.modifiedFiles.dropLast = l.modifiedFiles.dropLast ∧
      l'.whiteouts = l.whiteouts) ∧
    (∀ (l : LayeredMap) (s : String) (b : Bool) (l' : LayeredMap),
      LayeredMap.MaybeAddWhiteout l s = .ok (b, l') →
      l'.whiteouts.dropLast = l.whiteouts.dropLast ∧
      l'.layers = l.layers ∧ l'.modifiedFiles = l.modifiedFiles) ∧
    (∀ (hasher mtHasher : String → Except String String) (s v m : String),
      hasher s = .ok v → mtHasher s = .ok m →
      LayeredMap.Add hasher mtHasher NewLayeredMap s = .outOfRange) ∧
    (∀ (hasher : String → Except String String) (s v : String),
      hasher s = .ok v →
      LayeredMap.MaybeAdd hasher NewLayeredMap s = .outOfRange) ∧
    (∀ s : String, LayeredMap.MaybeAddWhiteout NewLayeredMap s = .outOfRange) := by
  refine ⟨fun l => ⟨rfl, rfl, rfl⟩,
    fun hasher mtHasher ops l' h => runOps_balanced ⟨rfl, rfl⟩ h,
    fun hasher mtHasher l s l' h => ?_,
    fun l s b l' h => ?_, ?_, ?_, fun s => rfl⟩
  · obtain ⟨v, ls, m, ms, hsl, hsm, rfl⟩ := add_ok h
    exact ⟨(setLast_some hsl).1, (setLast_some hsm).1, rfl⟩
  · rcases maybeAddWhiteout_ok h with rfl | ⟨ws, hsl, rfl⟩
    · exact ⟨rfl, rfl, rfl⟩
    · exact ⟨(setLast_some hsl).1, rfl, rfl⟩
  · intro hasher mtHasher s v m hv hm
    simp [LayeredMap.Add, hv, NewLayeredMap, setLast]
  · intro hasher s v hv
    simp [LayeredMap.MaybeAdd, LayeredMap.Get, NewLayeredMap, layersGet, hv, setLast]

/-- Witness for C10: the operation sequence `Snapshot; Add "/a"` run with
the constant hashers yields the concrete balanced state `lmAfterAdd`, and
`MaybeAdd` on the fresh map aborts out of range. -/
theorem snapshot_appends_one_and_writes_need_prior_snapshot_witness :
    (lmAfterAdd.layers.length = lmAfterAdd.whiteouts.length ∧
     lmAfterAdd.layers.length = lmAfterAdd.modifiedFiles.length) ∧
    LayeredMap.MaybeAdd hConst NewLayeredMap "/x" = .outOfRange :=
  ⟨snapshot_appends_one_and_writes_need_prior_snapshot.2.1 hConst mConst
      [LMOp.snapshot, LMOp.add "/a"] lmAfterAdd (by decide),
   snapshot_appends_one_and_writes_need_prior_snapshot.2.2.2.2.2.1 hConst "/x" "h" rfl⟩

/-- C6: the stage builder's snapshot decision agrees with the spec's
matrix on every input: non-final stages and single-snapshot final stages
take a full snapshot only after the last command; otherwise every command
snapshots, targeted when its files are known and full otherwise. -/
theorem snapshot_decision_matches_matrix :
    ∀ (finalStage singleSnapshot finalCmd : Bool)
      (files : Option (List String)),
      snapshotDecision finalStage singleSnapshot finalCmd files =
        snapshotMatrix finalStage singleSnapshot finalCmd files := by
  intro finalStage singleSnapshot finalCmd files
  cases finalStage <;> cases singleSnapshot <;> cases finalCmd <;>
    cases files <;> rfl

/-- C5: for every instruction, `stageBuilder.CacheKey` is the SHA256 of
the concatenation, in this order, of the base-image digest, the filesystem
key (SHA256 of the deterministic serialization of the ignore-mtime
`modifiedFiles` maps of all layers so far), the SHA256 hash of the
JSON-encoded image config, and the instruction's created-by string. -/
theorem cache_key_is_sha256_of_ordered_concatenation :
    ∀ (Cfg : Type) (sha256 : String → String) (encMaps : List GoMap → String)
      (encCfg : Cfg → String) (s : StageBuilder Cfg) (cmd : String),
      CacheKey sha256 encMaps encCfg s cmd =
        cacheKeyFormula sha256 s.BaseImage
          (sha256 (goJsonEncode encMaps s.lm.modifiedFiles))
          (sha256 (goJsonEncode encCfg s.ConfigFile)) cmd :=
  fun _ _ _ _ _ _ => rfl

/-- C9: `PushLayerToCache` always, and `CheckCacheForLayer` whenever no
cache repository is configured, read `opts.Destinations[0]` before any
error branch can fire, so an empty destination list aborts out of range;
a non-empty destination list restores safety (the only remaining failure
is the tag-parse error). -/
theorem cache_client_requires_nonempty_destinations :
    (∀ (ctx : String → Except String String) (opts : KanikoOptions)
      (key : String), opts.Destinations = [] →
      PushLayerToCache ctx opts key = .outOfRange) ∧
    (∀ (ctx : String → Except String String) (opts : KanikoOptions)
      (key : String), opts.Cache = "" → opts.Destinations = [] →
      CheckCacheForLayer ctx opts key = .outOfRange) ∧
    (∀ (ctx : String → Except String String) (opts : KanikoOptions)
      (key d : String) (ds : List String), opts.Destinations = d :: ds →
      PushLayerToCache ctx opts key ≠ .outOfRange) ∧
    (∀ (ctx : String → Except String String) (opts : KanikoOptions)
      (key d : String) (ds : List String), opts.Destinations = d :: ds →
      CheckCacheForLayer ctx opts key ≠ .outOfRange) := by
  refine ⟨fun ctx opts key h => by simp [PushLayerToCache, h],
    fun ctx opts key hc h => by simp [CheckCacheForLayer, hc, h],
    fun ctx opts key d ds h => ?_, fun ctx opts key d ds h => ?_⟩
  · simp only [PushLayerToCache, h]
    cases ctx d <;> simp
  · simp only [CheckCacheForLayer, h]
    by_cases hc : opts.Cache == ""
    · simp only [hc, if_pos rfl]
      cases ctx d <;> simp
    · simp [hc]

/-- Witness for C9: with no cache repository and no destinations
(`optsNoDest`), both cache operations abort out of range; with one
destination they do not. -/
theorem cache_client_requires_nonempty_destinations_witness :
    PushLayerToCache ctxEcho optsNoDest "k" = .outOfRange ∧
    CheckCacheForLayer ctxEcho optsNoDest "k" = .outOfRange ∧
    PushLayerToCache ctxEcho ⟨"", ["gcr.io/test/image"]⟩ "k" ≠ .outOfRange :=
  ⟨cache_client_requires_nonempty_destinations.1 ctxEcho optsNoDest "k" rfl,
   cache_client_requires_nonempty_destinations.2.1 ctxEcho optsNoDest "k" rfl rfl,
   cache_client_requires_nonempty_destinations.2.2.1 ctxEcho
     ⟨"", ["gcr.io/test/image"]⟩ "k" "gcr.io/test/image" [] rfl⟩

/-- C4 counterexample: with a cacheable instruction and caching enabled,
a failing cache push makes the `buildStage` loop body return the push
error — the error is propagated and the stage build aborts, contrary to
the claim that it is only logged. -/
theorem cache_push_error_propagates_counterexample :
    appendLayerStep true true (.error "push failed") ⟨[], []⟩
      "RUN echo hi" (some "layerbytes") = .error "push failed" := rfl

/-- C4 amended: for every cacheable instruction built with caching
enabled, a failure to push the freshly produced layer to the cache
registry is returned from the stage build loop — the error aborts the
stage and is propagated to the driver, and the layer is not appended. -/
theorem cache_push_error_aborts_stage :
    ∀ (e : String) (img : Image) (createdBy layer : String),
      appendLayerStep true true (.error e) img createdBy (some layer) =
        .error e :=
  fun _ _ _ _ => rfl

/-- C8 counterexample: an instruction whose snapshot pass returns nil
leaves the image completely unchanged — the history does not record the
instruction (the loop `continue`s before `mutate.Append`), contrary to the
claim that history still records it. -/
theorem noop_instruction_records_no_history_counterexample :
    appendLayerStep false false (.ok ()) ⟨[], []⟩ "RUN touch x" none =
      .ok ⟨[], []⟩ ∧
    Image.mk [] [] ≠ Image.mk [] ["RUN touch x"] := ⟨rfl, by decide⟩

/-- C8 amended: for every instruction whose execution changes nothing on
disk (the snapshot pass returns nil), the stage builder appends no layer
and also records nothing in the image history: the image is unchanged by
that instruction. -/
theorem noop_instruction_leaves_image_unchanged :
    ∀ (cacheCmd useCache : Bool) (pushResult : Except String Unit)
      (img : Image) (createdBy : String),
      appendLayerStep cacheCmd useCache pushResult img createdBy none =
        .ok img :=
  fun _ _ _ _ _ => rfl

/-- C2 at a failing input: with `/a` recorded in the layered map but
deleted from disk, the full-filesystem pass writes a whiteout entry for
`/a` into the tar stream, yet `filesAdded` stays false and `TakeSnapshot`
with nil files returns nil — a whiteout-only pass does not return a
non-nil tar. -/
theorem whiteout_only_pass_returns_nil :
    snapShotFS id (fun _ => false) [] lm2Deleted =
      .ok (⟨[[("/a", "h1")], []], [("/a", true)]⟩,
        [TarEntry.whiteout "/a"], false) ∧
    TakeSnapshot id (fun _ => false) [] lm2Deleted none =
      .ok (⟨[[("/a", "h1")], []], [("/a", true)]⟩, none) := by decide

/-- C3 at a failing input: `/a/b` is recorded in the layered map and
missing on disk while its ancestor directory `/a` already has a recorded
whiteout; the ancestor scan computes `true`, yet `checkForRemovedFiles`
still emits a whiteout for `/a/b`, because the source's `continue` only
advances the ancestor scan itself. -/
theorem whiteout_emitted_despite_whited_out_ancestor :
    ancestorWhitedOut lm2Ancestor.WhiteoutFiles "/a/b" = true ∧
    checkForRemovedFiles id [] lm2Ancestor =
      (⟨[[("/a/b", "h")]], [("/a", true), ("/a/b", true)]⟩,
        [TarEntry.whiteout "/a/b"]) := by decide

/-- C7 at a failing input: a layer containing `/a/.wh.b`, whose basename
starts with `.wh.`, still shows up in `GetFlattenedPathsForWhiteOut` —
the unconditional re-insert after the `if`/`else` cancels the intended
exclusion of whiteout-named paths. -/
theorem flattened_paths_keep_whiteout_named_paths :
    lmWhiteoutNamed.GetFlattenedPathsForWhiteOut = ["/a/.wh.b", "/c"] ∧
    goHasStart ".wh." (goBase "/a/.wh.b") = true := by decide

end Kaniko
